import Mathlib

/-!
# zite: a verification development

A shallow embedding of `zite.go`, the static site generator, together with
theorems about its path arithmetic, include expansion, tree building, layout
lookup and output materialisation.

Go strings are byte sequences; they are modelled as `List Char`, one `Char`
per byte.  The file system is an explicit value of type `FS` that the
functions read and (for the output phase) thread through.
-/

namespace Zite

/-- Go `string`: a sequence of bytes. -/
abbrev Str := List Char

/-! ## Library functions used by the program -/

/-- The loop of `filepath.Ext`: `rev` holds the bytes not yet inspected, last
byte first, and `acc` the bytes already passed.  The scan stops at a path
separator (no extension) or at the first dot met (the extension). -/
def extScan : Str → Str → Str
  | [], _ => []
  | c :: rev, acc =>
    if c = '/' then []
    else if c = '.' then '.' :: acc
    else extScan rev (c :: acc)

/-- Go `filepath.Ext`: the suffix beginning at the final dot in the final
element of `path`; empty if there is no dot. -/
def Ext (path : Str) : Str :=
  extScan path.reverse []

/-- Go `strings.Replace(s, old, new, 1)`: the first occurrence of `old` in `s`
is replaced by `new`; an empty `old` matches at the beginning of the string. -/
def replaceFirst (s old new : Str) : Str :=
  match s with
  | [] => if old = [] then new else []
  | c :: cs =>
    if old.isPrefixOf (c :: cs) then new ++ (c :: cs).drop old.length
    else c :: replaceFirst cs old new

/-- Go `strings.Split(s, sep)` for a one-byte separator: the pieces between
the separators; a string without a separator gives one piece. -/
def splitOnByte (sep : Char) : Str → List Str
  | [] => [[]]
  | c :: cs =>
    if c = sep then [] :: splitOnByte sep cs
    else
      match splitOnByte sep cs with
      | [] => [[c]]
      | l :: ls => (c :: l) :: ls

/-- Go `strings.Join(elems, sep)` for a one-byte separator. -/
def joinWithByte (sep : Char) : List Str → Str
  | [] => []
  | [l] => l
  | l :: m :: ls => l ++ sep :: joinWithByte sep (m :: ls)

/-- One step of `filepath.Clean` over the elements of a path. `out` is the
output so far, last element first.  An empty element and `.` are dropped;
`..` removes the element before it when there is one that is not itself
`..`, is dropped at the top of a rooted path, and is kept otherwise. -/
def cleanStep (rooted : Bool) (out : List Str) (c : Str) : List Str :=
  if c = [] then out
  else if c = ['.'] then out
  else if c = ['.', '.'] then
    match out with
    | [] => if rooted then [] else [c]
    | top :: rest => if top = ['.', '.'] then c :: out else rest
  else c :: out

/-- Go `filepath.Clean` (Unix): the shortest path equivalent to `path` by
purely lexical processing.  The empty result is written `.`. -/
def Clean (path : Str) : Str :=
  let rooted := path.head? = some '/'
  let out := (splitOnByte '/' path).foldl (cleanStep rooted) []
  if rooted then '/' :: joinWithByte '/' out.reverse
  else if out = [] then ['.']
  else joinWithByte '/' out.reverse

/-- Go `filepath.Join(a, b)`: the non-empty arguments joined by the separator
and cleaned; two empty arguments give the empty string. -/
def Join (a b : Str) : Str :=
  if a = [] then (if b = [] then [] else Clean b)
  else Clean (a ++ '/' :: b)

/-- Go `filepath.Dir` (Unix): everything up to and including the final
separator, cleaned. -/
def Dir (path : Str) : Str :=
  Clean (path.reverse.dropWhile (· ≠ '/')).reverse

/-- Go `filepath.Base` (Unix): the last element of `path`, after trailing
separators are removed. -/
def Base (path : Str) : Str :=
  if path = [] then ['.']
  else
    let stripped := path.reverse.dropWhile (· = '/')
    let last := (stripped.takeWhile (· ≠ '/')).reverse
    if last = [] then ['/'] else last

/-! ## The environment: file system and template engine -/

/-- An entry of a directory listing (`os.FileInfo`): the two accessors the
program uses. -/
structure FileInfo where
  Name : Str
  IsDir : Bool
  deriving DecidableEq, Repr

/-- The file system the program runs against.  Paths are looked up as
written.  `files` gives the bytes of the regular files, `dirs` the listing of
the directories (what `ioutil.ReadDir` returns, in its order), `readOnly` the
paths at which nothing can be created, and `space` the number of bytes the
output device can still take. -/
structure FS where
  files : Str → Option Str
  dirs : Str → Option (List FileInfo)
  readOnly : Str → Bool
  space : Nat

/-- How a call can fail: a Go `error` value handed back to the caller, a
run-time panic, or (in recursive searches) the exhaustion of the step budget,
which stands for a search that has not returned yet. -/
inductive Failure where
  | err
  | panic
  | noFuel
  deriving DecidableEq, Repr

deriving instance DecidableEq for Except

/-- Go `os.Stat(path)` as the program uses it: `true` when `err == nil`,
that is when something exists at `path`. -/
def FS.stat (fs : FS) (path : Str) : Bool :=
  (fs.files path).isSome || (fs.dirs path).isSome

/-- Go `os.Mkdir(path, 0755)` with the parent in place: an error when
something exists at `path`, when `path` is empty and when `path` cannot be
created. -/
def FS.mkdir (fs : FS) (path : Str) : Except Failure FS :=
  if path = [] then .error .err
  else if fs.stat path then .error .err
  else if fs.readOnly path then .error .err
  else .ok { fs with dirs := fun p => if p = path then some [] else fs.dirs p }

/-- The recursion of `os.MkdirAll`.  Fast path: a directory at `path` is
success, a regular file an error.  Slow path: trailing separators and the
last element are passed over; when more than the leading byte is left, the
parent is made first; then `path` itself is made, and a failure of that is
forgiven when `path` is a directory after all.  `fuel` bounds the depth; the
parent is shorter than `path`, so the length of `path` suffices. -/
def FS.mkdirAllAux (fs : FS) : Nat → Str → Except Failure FS
  | 0, _ => .error .noFuel
  | fuel + 1, path =>
    if (fs.dirs path).isSome then .ok fs
    else if (fs.files path).isSome then .error .err
    else
      let upToElement := (path.reverse.dropWhile (· = '/')).dropWhile (· ≠ '/')
      let parentDone : Except Failure FS :=
        if 1 < upToElement.length then fs.mkdirAllAux fuel (upToElement.drop 1).reverse
        else .ok fs
      match parentDone with
      | .error e => .error e
      | .ok fs1 =>
        match fs1.mkdir path with
        | .ok fs2 => .ok fs2
        | .error e => if (fs1.dirs path).isSome then .ok fs1 else .error e

/-- Go `os.MkdirAll(dir, 0755)`: `dir` and every missing parent are made. -/
def FS.mkdirAll (fs : FS) (dir : Str) : Except Failure FS :=
  fs.mkdirAllAux (dir.length + 1) dir

/-- Go `os.Open(path)` for reading: succeeds on whatever exists at `path`,
a directory included (reading from it is what fails). -/
def FS.openFile (fs : FS) (path : Str) : Except Failure Unit :=
  if fs.stat path then .ok () else .error .err

/-- Go `os.Create(path)`: creates the file or truncates it to length zero.
It fails when the parent directory is missing, when `path` is a directory
and when `path` cannot be written. -/
def FS.create (fs : FS) (path : Str) : Except Failure FS :=
  if (fs.dirs (Dir path)).isNone then .error .err
  else if (fs.dirs path).isSome then .error .err
  else if fs.readOnly path then .error .err
  else .ok { fs with files := fun p => if p = path then some [] else fs.files p }

/-- Writing `data` to the open file `path`: when the device has room the
whole of `data` is written; otherwise as much as fits is written and the
write reports an error.  The first component is the error, if any. -/
def FS.write (fs : FS) (path data : Str) : Option Failure × FS :=
  if data.length ≤ fs.space then
    (none, { fs with files := fun p => if p = path then some data else fs.files p,
                     space := fs.space - data.length })
  else
    (some .err, { fs with files := fun p => if p = path then some (data.take fs.space) else fs.files p,
                          space := 0 })

/-- Go `io.Copy(fout, fin)` with `fin` open on `source` and `fout` on
`dest`: the bytes the source holds at this moment are written to `dest`;
reading fails when `source` is not a regular file. -/
def FS.copy (fs : FS) (source dest : Str) : Option Failure × FS :=
  match fs.files source with
  | none => (some .err, fs)
  | some data => fs.write dest data

/-- Go `ioutil.WriteFile(path, data, 0600)`: create or truncate, then write. -/
def FS.writeFile (fs : FS) (path data : Str) : Option Failure × FS :=
  match fs.create path with
  | .error e => (some e, fs)
  | .ok fs1 => fs1.write path data

/-- The global `config`. -/
structure Config where
  Src : Str
  Out : Str
  deriving DecidableEq, Repr

/-- The node of the source tree.  `Typ` is the field `Type` of the source.
The back-reference `Parent` is left out: the program assigns it and never
reads it. -/
inductive Element where
  | mk (Path Filename : Str) (Typ : String) (URL Title Content : Str)
      (Children : List Element) : Element

namespace Element

/-- Field `Path`. -/
def Path : Element → Str
  | mk p _ _ _ _ _ _ => p
/-- Field `Filename`. -/
def Filename : Element → Str
  | mk _ f _ _ _ _ _ => f
/-- Field `Type`. -/
def Typ : Element → String
  | mk _ _ t _ _ _ _ => t
/-- Field `URL`. -/
def URL : Element → Str
  | mk _ _ _ u _ _ _ => u
/-- Field `Title`. -/
def Title : Element → Str
  | mk _ _ _ _ t _ _ => t
/-- Field `Content`. -/
def Content : Element → Str
  | mk _ _ _ _ _ c _ => c
/-- Field `Children`. -/
def Children : Element → List Element
  | mk _ _ _ _ _ _ cs => cs

end Element

/-- The template engine (`text/template` with the `markdown` helper
installed): parsing `text` and executing it against `data` gives the rendered
text, or `none` when parsing or execution reports an error. -/
abbrev Engine := Str → Element → Option Str

/-! ## The program -/

/-- Go `s[n:]`: out of range when `n` exceeds the length. -/
def sliceFrom (s : Str) (n : Nat) : Except Failure Str :=
  if n ≤ s.length then .ok (s.drop n) else .error .panic

/-- The text every include directive starts with. -/
def includeOpen : Str := "\x7b\x7binclude ".toList

/-- The text every include directive ends with. -/
def includeClose : Str := "\x7d\x7d".toList

/-- An attempt to match `\{\{include ([^}]+)}}` at the head of `s`: the
opening text, then the longest run of bytes other than `}` (which must not
be empty), then `}}`.  The result is the matched text. -/
def matchInclude (s : Str) : Option Str :=
  if includeOpen.isPrefixOf s then
    let rest := s.drop includeOpen.length
    let arg := rest.takeWhile (· ≠ '\x7d')
    let tail := rest.dropWhile (· ≠ '\x7d')
    if arg ≠ [] ∧ includeClose.isPrefixOf tail then
      some (includeOpen ++ arg ++ includeClose)
    else none
  else none

/-- Go `ReplaceAllStringFunc`: the matches are found from left to right
without overlap, each is replaced by what `fn` returns for it, and the text
between the matches is copied.  `skip` counts the bytes of the current match
that are still to be passed over. -/
def replaceAllFunc (fn : Str → Except Failure Str) : Str → Nat → Except Failure Str
  | [], _ => .ok []
  | _ :: cs, skip + 1 => replaceAllFunc fn cs skip
  | c :: cs, 0 =>
    match matchInclude (c :: cs) with
    | some m => do
      let r ← fn m
      let rest ← replaceAllFunc fn cs (m.length - 1)
      pure (r ++ rest)
    | none => do
      let rest ← replaceAllFunc fn cs 0
      pure (c :: rest)

/-- `replaceIncludes(path, content)`. -/
def replaceIncludes (fs : FS) (path content : Str) : Except Failure Str :=
  let baseDir := Dir path
  let fn := fun (incl : Str) =>
    let includePath := (incl.drop 10).take (incl.length - 2 - 10)
    let relativePath := Join baseDir includePath
    match fs.files relativePath with
    | none => .error .panic
    | some buffer => .ok buffer
  replaceAllFunc fn content 0

/-- `readTextFile(path)`. -/
def readTextFile (fs : FS) (path : Str) : Except Failure Str :=
  match fs.files path with
  | none => .error .err
  | some buffer => .ok buffer

/-- `ensureExt(path, ext)`. -/
def ensureExt (path ext : Str) : Str :=
  let curExt := Ext path
  replaceFirst path curExt ext

/-- `pathToURL(path)`. -/
def pathToURL (cfg : Config) (path : Str) : Except Failure Str :=
  sliceFrom (ensureExt path ".html".toList) cfg.Src.length

/-- `readFile(path)`. -/
def readFile (cfg : Config) (fs : FS) (path : Str) : Except Failure Element :=
  let ext := Ext path
  if ext = ".md".toList then do
    let content ← readTextFile fs path
    let lines := splitOnByte '\n' content
    let url ← pathToURL cfg path
    let title ← (match lines with
      | [] => .error .panic
      | l :: _ => .ok l : Except Failure Str)
    let body ← (if 2 ≤ lines.length then .ok (lines.drop 2) else .error .panic :
      Except Failure (List Str))
    pure (Element.mk path (Base path) "page" url title (joinWithByte '\n' body) [])
  else if ext = ".html".toList then do
    let content ← readTextFile fs path
    let url ← pathToURL cfg path
    let expanded ← replaceIncludes fs path content
    pure (Element.mk path (Base path) "page" url [] expanded [])
  else do
    let url ← pathToURL cfg path
    pure (Element.mk path (Base path) "file" url [] [] [])

/-- The loop of `readDirectory` over the listing, with the two recursive
calls passed in. -/
def readEntries (readDir readF : Str → Except Failure Element) (path : Str) :
    List FileInfo → Except Failure (List Element)
  | [] => .ok []
  | fi :: files =>
    if fi.Name = [] then .error .panic
    else if fi.Name.take 1 = ['_'] then readEntries readDir readF path files
    else do
      let e ← (if fi.IsDir then readDir (Join path fi.Name) else readF (Join path fi.Name))
      let es ← readEntries readDir readF path files
      pure (e :: es)

/-- `readDirectory(path)`; `fuel` bounds the depth of the recursion. -/
def readDirectory (cfg : Config) (fs : FS) : Nat → Str → Except Failure Element
  | 0, _ => .error .noFuel
  | fuel + 1, path =>
    match fs.dirs path with
    | none => .error .err
    | some files => do
      let children ← readEntries (readDirectory cfg fs fuel) (readFile cfg fs) path files
      pure (Element.mk path (Base path) "dir" [] [] [] children)

/-- The name of the layout file. -/
def templateName : Str := "/_template.html".toList

/-- `getTemplate(path)`; `fuel` bounds the number of directories visited. -/
def getTemplate (fs : FS) : Nat → Str → Except Failure Str
  | 0, _ => .error .noFuel
  | fuel + 1, path =>
    let templateFilename := path ++ templateName
    if fs.stat templateFilename = false then getTemplate fs fuel (Dir path)
    else
      match readTextFile fs templateFilename with
      | .error e => .error e
      | .ok text => replaceIncludes fs templateFilename text

/-- `renderFile(el)`; `fuel` is the budget of the layout search. -/
def renderFile (cfg : Config) (tmpl : Engine) (fuel : Nat) (fs : FS) (el : Element) :
    Except Failure Str :=
  let path := el.Path
  let ext := Ext path
  if ext = ".html".toList then
    match tmpl el.Content el with
    | none => .error .err
    | some out => .ok out
  else if ext = ".md".toList then do
    let templateText ← getTemplate fs fuel (Dir path)
    let page ← readFile cfg fs path
    match tmpl templateText page with
    | none => .error .err
    | some out => .ok out
  else .error .panic

/-- `ensurePath(path)`: the error, if any, and the file system afterwards. -/
def ensurePath (fs : FS) (path : Str) : Option Failure × FS :=
  let dir := Dir path
  if fs.stat dir = false then
    match fs.mkdirAll dir with
    | .error e => (some e, fs)
    | .ok fs1 => (none, fs1)
  else (none, fs)

/-- `writeFile(path, content)`. -/
def writeFile (fs : FS) (path content : Str) : Option Failure × FS :=
  match ensurePath fs path with
  | (some e, fs1) => (some e, fs1)
  | (none, fs1) => fs1.writeFile path content

/-- `copyFile(source, dest)`.  The results of `ensurePath` and of `io.Copy`
are dropped, as in the source. -/
def copyFile (fs : FS) (source dest : Str) : Option Failure × FS :=
  let fs1 := (ensurePath fs dest).2
  match fs1.openFile source with
  | .error e => (some e, fs1)
  | .ok _ =>
    match fs1.create dest with
    | .error e => (some e, fs1)
    | .ok fs2 =>
      let fs3 := (fs2.copy source dest).2
      (none, fs3)

/-- `stripPath(path)`. -/
def stripPath (cfg : Config) (path : Str) : Except Failure Str :=
  sliceFrom path (cfg.Src.length + 1)

/-- The destination `generate` computes for a `file` Element. -/
def fileDestPath (cfg : Config) (path : Str) : Except Failure Str := do
  let rel ← stripPath cfg path
  pure (Join cfg.Out rel)

/-- The destination `generate` computes for a `page` Element. -/
def pageDestPath (cfg : Config) (path : Str) : Except Failure Str := do
  let rel ← stripPath cfg path
  pure (ensureExt (Join cfg.Out rel) ".html".toList)

mutual
/-- `generate(el)`: the error, if any, and the file system afterwards. -/
def generate (cfg : Config) (tmpl : Engine) (fuel : Nat) : Element → FS → Option Failure × FS
  | .mk path filename typ url title content children, fs =>
    if typ = "file" then
      match fileDestPath cfg path with
      | .error e => (some e, fs)
      | .ok destPath => copyFile fs path destPath
    else if typ = "page" then
      match pageDestPath cfg path with
      | .error e => (some e, fs)
      | .ok destPath =>
        match renderFile cfg tmpl fuel fs (.mk path filename typ url title content children) with
        | .error e => (some e, fs)
        | .ok rendered => writeFile fs destPath rendered
    else if typ = "dir" then generateAll cfg tmpl fuel children fs
    else (none, fs)
/-- The loop of `generate` over the children of a `dir` Element. -/
def generateAll (cfg : Config) (tmpl : Engine) (fuel : Nat) : List Element → FS → Option Failure × FS
  | [], fs => (none, fs)
  | el :: rest, fs =>
    match generate cfg tmpl fuel el fs with
    | (some e, fs1) => (some e, fs1)
    | (none, fs1) => generateAll cfg tmpl fuel rest fs1
end

/-! ## Notions used to state the theorems -/

/-- A name as `ioutil.ReadDir` reports it: not empty, without a separator,
and neither `.` nor `..`. -/
def validName (n : Str) : Prop :=
  n ≠ [] ∧ '/' ∉ n ∧ n ≠ ['.'] ∧ n ≠ ['.', '.']

instance (n : Str) : Decidable (validName n) := by
  unfold validName; infer_instance

/-- The entry is a convention file: its name begins with `_`. -/
def hiddenEntry (fi : FileInfo) : Bool :=
  fi.Name.take 1 = ['_']

mutual
/-- All Elements strictly below `e` in the tree. -/
def Element.descendants : Element → List Element
  | .mk _ _ _ _ _ _ cs => descendantsAll cs
/-- The Elements of `es` and everything below them. -/
def descendantsAll : List Element → List Element
  | [] => []
  | e :: es => e :: (e.descendants ++ descendantsAll es)
end

/-! ## Sample sites used to exercise the theorems -/

/-- The default configuration: `Src = "src"`, `Out = "www"`. -/
def defaultConfig : Config := ⟨"src".toList, "www".toList⟩

/-- A file system given by a table of files and a table of directory
listings, with nothing read-only. -/
def FS.ofTables (files : List (Str × Str)) (dirs : List (Str × List FileInfo)) (space : Nat) : FS :=
  { files := fun p => (files.find? (fun e => e.1 = p)).map (·.2),
    dirs := fun p => (dirs.find? (fun e => e.1 = p)).map (·.2),
    readOnly := fun _ => false,
    space := space }

/-- A site with one markdown page. -/
def markdownSite : FS :=
  FS.ofTables
    [("src/index.md".toList, "Title Line\n\nBody line one\nBody line two".toList),
     ("src/short.md".toList, "Only a title\n".toList)]
    [("src".toList, [⟨"index.md".toList, false⟩, ⟨"short.md".toList, false⟩])]
    1000

/-- A site whose page includes a partial that itself holds a directive. -/
def includeSite : FS :=
  FS.ofTables
    [("dir/page.html".toList, "<p>\x7b\x7binclude partial.html\x7d\x7d</p>".toList),
     ("dir/partial.html".toList, "<b>Hi</b>\x7b\x7binclude other.html\x7d\x7d".toList)]
    [("dir".toList, [⟨"page.html".toList, false⟩, ⟨"partial.html".toList, false⟩])]
    1000

/-- A site with a layout in `a` and none in `a/b`. -/
def layoutSite : FS :=
  FS.ofTables
    [("a/_template.html".toList, "<html>layout</html>".toList),
     ("a/b/page.md".toList, "T\n\nbody".toList)]
    [("a".toList, [⟨"_template.html".toList, false⟩, ⟨"b".toList, true⟩]),
     ("a/b".toList, [⟨"page.md".toList, false⟩])]
    1000

/-- A site with a layout, a draft, a page and a directory of images. -/
def treeSite : FS :=
  FS.ofTables
    [("src/_template.html".toList, "<html></html>".toList),
     ("src/index.md".toList, "Home\n\nWelcome".toList),
     ("src/img/logo.png".toList, "PNGDATA".toList),
     ("src/img/_raw.psd".toList, "PSD".toList)]
    [("src".toList, [⟨"_template.html".toList, false⟩, ⟨"img".toList, true⟩,
        ⟨"index.md".toList, false⟩]),
     ("src/img".toList, [⟨"_raw.psd".toList, false⟩, ⟨"logo.png".toList, false⟩])]
    1000

/-- The tree `readDirectory` builds for `treeSite`. -/
def treeSiteElement : Element :=
  .mk "src".toList "src".toList "dir" [] [] []
    [.mk "src/img".toList "img".toList "dir" [] [] []
        [.mk "src/img/logo.png".toList "logo.png".toList "file" "/img/logo.html".toList [] [] []],
     .mk "src/index.md".toList "index.md".toList "page" "/index.html".toList
        "Home".toList "Welcome".toList []]

/-- A site with one image, on an output device with room for three more
bytes. -/
def fullDiskSite : FS :=
  FS.ofTables
    [("src/logo.png".toList, "PNGDATA".toList)]
    [("src".toList, [⟨"logo.png".toList, false⟩]), ("www".toList, [])]
    3

/-- The `file` Element for `src/logo.png`. -/
def logoElement : Element :=
  .mk "src/logo.png".toList "logo.png".toList "file" "/logo.html".toList [] [] []

/-- A template engine that renders every template as the empty text. -/
def blankEngine : Engine := fun _ _ => some []

/-- A site with a markdown page inside a directory whose name ends in
`.md`, and a file without an extension. -/
def nestedSite : FS :=
  FS.ofTables
    [("src/_template.html".toList, "<html></html>".toList),
     ("src/a.md/b.md".toList, "T\n\nbody".toList),
     ("src/README".toList, "read me".toList)]
    [("src".toList, [⟨"README".toList, false⟩, ⟨"_template.html".toList, false⟩,
        ⟨"a.md".toList, true⟩]),
     ("src/a.md".toList, [⟨"b.md".toList, false⟩]),
     ("www".toList, [])]
    1000

/-- The tree `readDirectory` builds for `nestedSite`. -/
def nestedSiteElement : Element :=
  .mk "src".toList "src".toList "dir" [] [] []
    [.mk "src/README".toList "README".toList "file" "mlsrc/README".toList [] [] [],
     .mk "src/a.md".toList "a.md".toList "dir" [] [] []
        [.mk "src/a.md/b.md".toList "b.md".toList "page" "/a.html/b.md".toList
          "T".toList "body".toList []]]

/-- A configuration whose source root is written with redundant `./`
elements. -/
def uncleanConfig : Config := ⟨"./././././src".toList, "www".toList⟩

/-- The site of `uncleanConfig`: the listing is asked for under the source
root as configured, the files are read under the cleaned paths that
`filepath.Join` produces. -/
def uncleanSite : FS :=
  FS.ofTables
    [("src/a.md".toList, "T\n\nb".toList),
     ("src/b.md".toList, "Only a title\n".toList)]
    [("./././././src".toList, [⟨"a.md".toList, false⟩, ⟨"b.md".toList, false⟩])]
    1000

/-! ## Lists of bytes: splitting, joining, replacing -/

theorem splitOnByte_ne_nil (sep : Char) (s : Str) : splitOnByte sep s ≠ [] := by
  induction s with
  | nil => simp [splitOnByte]
  | cons c cs ih =>
    unfold splitOnByte
    split
    · simp
    · split <;> simp

theorem splitOnByte_append_sep (sep : Char) (a b : Str) (ha : sep ∉ a) :
    splitOnByte sep (a ++ sep :: b) = a :: splitOnByte sep b := by
  induction a with
  | nil => simp [splitOnByte]
  | cons c cs ih =>
    have hc : c ≠ sep := fun h => ha (by simp [h])
    have hcs : sep ∉ cs := fun h => ha (by simp [h])
    rw [List.cons_append, splitOnByte, if_neg hc, ih hcs]

theorem splitOnByte_of_not_mem (sep : Char) (a : Str) (ha : sep ∉ a) :
    splitOnByte sep a = [a] := by
  induction a with
  | nil => simp [splitOnByte]
  | cons c cs ih =>
    have hc : c ≠ sep := fun h => ha (by simp [h])
    have hcs : sep ∉ cs := fun h => ha (by simp [h])
    simp only [splitOnByte, if_neg hc, ih hcs]

theorem length_splitOnByte (sep : Char) (s : Str) :
    (splitOnByte sep s).length = s.count sep + 1 := by
  induction s with
  | nil => simp [splitOnByte]
  | cons c cs ih =>
    unfold splitOnByte
    by_cases hc : c = sep
    · subst hc
      simp [ih]
    · rw [if_neg hc]
      have hne := splitOnByte_ne_nil sep cs
      cases hsp : splitOnByte sep cs with
      | nil => exact absurd hsp hne
      | cons l ls =>
        rw [hsp] at ih
        simp only [List.length_cons] at ih ⊢
        rw [List.count_cons_of_ne (Ne.symm hc)]
        omega

theorem joinWithByte_splitOnByte (sep : Char) (s : Str) :
    joinWithByte sep (splitOnByte sep s) = s := by
  induction s with
  | nil => simp [splitOnByte, joinWithByte]
  | cons c cs ih =>
    unfold splitOnByte
    by_cases hc : c = sep
    · subst hc
      rw [if_pos rfl]
      cases hsp : splitOnByte c cs with
      | nil => exact absurd hsp (splitOnByte_ne_nil c cs)
      | cons l ls =>
        rw [hsp] at ih
        simp [joinWithByte, ih]
    · rw [if_neg hc]
      cases hsp : splitOnByte sep cs with
      | nil => exact absurd hsp (splitOnByte_ne_nil sep cs)
      | cons l ls =>
        rw [hsp] at ih
        cases ls with
        | nil =>
          simp only [joinWithByte] at ih ⊢
          rw [ih]
        | cons m ms =>
          simp only [joinWithByte] at ih ⊢
          rw [← ih]; simp

theorem length_le_replaceFirst (s old new : Str) (h : old.length ≤ new.length) :
    s.length ≤ (replaceFirst s old new).length := by
  induction s with
  | nil => unfold replaceFirst; split <;> simp
  | cons c cs ih =>
    unfold replaceFirst
    split
    · rename_i hp
      have hpre : old <+: c :: cs := List.isPrefixOf_iff_prefix.mp hp
      have hlen := hpre.length_le
      simp only [List.length_append, List.length_drop, List.length_cons] at hlen ⊢
      omega
    · simp only [List.length_cons]; omega

/-! ## Tree builder: markdown pages -/

theorem pathToURL_in_range (cfg : Config) (path : Str)
    (hrange : cfg.Src.length ≤ (ensureExt path ".html".toList).length) :
    pathToURL cfg path = .ok ((ensureExt path ".html".toList).drop cfg.Src.length) := by
  simp only [pathToURL, sliceFrom]
  rw [if_pos hrange]

theorem pathToURL_out_of_range (cfg : Config) (path : Str)
    (hrange : ¬ cfg.Src.length ≤ (ensureExt path ".html".toList).length) :
    pathToURL cfg path = .error .panic := by
  simp only [pathToURL, sliceFrom]
  rw [if_neg hrange]

/-- A markdown path that begins with the source root keeps the slice of
`pathToURL` in range. -/
theorem in_range_of_prefix (cfg : Config) (path : Str) (hext : Ext path = ".md".toList)
    (hsrc : cfg.Src <+: path) :
    cfg.Src.length ≤ (ensureExt path ".html".toList).length := by
  have h1 : path.length ≤ (replaceFirst path ".md".toList ".html".toList).length :=
    length_le_replaceFirst _ _ _ (by decide)
  have h2 := hsrc.length_le
  simp only [ensureExt, hext]
  exact le_trans h2 h1

/-- What `readFile` computes for a markdown file for which the slice of
`pathToURL` is in range, in terms of the lines of its text. -/
theorem readFile_md_eq (cfg : Config) (fs : FS) (path content : Str)
    (hext : Ext path = ".md".toList)
    (hrange : cfg.Src.length ≤ (ensureExt path ".html".toList).length)
    (hfile : fs.files path = some content) :
    readFile cfg fs path =
      match splitOnByte '\n' content with
      | l :: _ :: rest =>
        .ok (Element.mk path (Base path) "page"
          ((ensureExt path ".html".toList).drop cfg.Src.length)
          l (joinWithByte '\n' rest) [])
      | _ => .error .panic := by
  have hurl := pathToURL_in_range cfg path hrange
  simp only [readFile, hext, if_true, readTextFile, hfile, hurl, bind, Except.bind, pure,
    Except.pure]
  cases hsp : splitOnByte '\n' content with
  | nil => exact absurd hsp (splitOnByte_ne_nil _ _)
  | cons l ls =>
    cases ls with
    | nil => simp
    | cons m ms => simp

/-- When the slice of `pathToURL` is out of range, `readFile` panics on a
readable markdown file whatever its text is. -/
theorem readFile_md_url_out_of_range (cfg : Config) (fs : FS) (path content : Str)
    (hext : Ext path = ".md".toList)
    (hrange : ¬ cfg.Src.length ≤ (ensureExt path ".html".toList).length)
    (hfile : fs.files path = some content) :
    readFile cfg fs path = .error .panic := by
  have hurl := pathToURL_out_of_range cfg path hrange
  simp only [readFile, hext, if_true, readTextFile, hfile, hurl, bind, Except.bind]

/-- C4, as stated, fails: with `Src = "./././././src"` the tree builder
reads `src/a.md` (the joined path is cleaned), whose text `T\n\nb` is a
title line, an empty separator line and a body; `readFile` panics in the
slice of `pathToURL` and returns no Element, and so does `readDirectory` on
the source root. -/
theorem readFile_md_title_content_unclean_src :
    Join uncleanConfig.Src "a.md".toList = "src/a.md".toList ∧
    Ext "src/a.md".toList = ".md".toList ∧
    uncleanSite.files "src/a.md".toList = some ("T".toList ++ '\n' :: ([] ++ '\n' :: "b".toList)) ∧
    '\n' ∉ "T".toList ∧
    readFile uncleanConfig uncleanSite "src/a.md".toList = .error .panic ∧
    readDirectory uncleanConfig uncleanSite 1 uncleanConfig.Src = .error .panic :=
  ⟨by decide, by decide, by decide, by decide, rfl, rfl⟩

/-- C4. A markdown file whose text is a title line, a separator line and a
body, at a path for which the slice of `pathToURL` is in range (the length
of `config.Src` does not exceed that of `ensureExt(path, ".html")`), is read
as a `page` Element whose `Title` is the title line and whose `Content` is
the body, byte for byte. -/
theorem readFile_md_title_content (cfg : Config) (fs : FS) (path t s b : Str)
    (hext : Ext path = ".md".toList)
    (hrange : cfg.Src.length ≤ (ensureExt path ".html".toList).length)
    (hfile : fs.files path = some (t ++ '\n' :: (s ++ '\n' :: b)))
    (ht : '\n' ∉ t) (hs : '\n' ∉ s) :
    ∃ el, readFile cfg fs path = .ok el ∧ el.Typ = "page" ∧ el.Path = path ∧
      el.Title = t ∧ el.Content = b := by
  rw [readFile_md_eq cfg fs path _ hext hrange hfile,
    splitOnByte_append_sep _ _ _ ht, splitOnByte_append_sep _ _ _ hs]
  exact ⟨_, rfl, rfl, rfl, rfl, joinWithByte_splitOnByte _ _⟩

theorem readFile_md_title_content_witness :
    ∃ el, readFile defaultConfig markdownSite "src/index.md".toList = .ok el ∧
      el.Typ = "page" ∧ el.Path = "src/index.md".toList ∧
      el.Title = "Title Line".toList ∧
      el.Content = "Body line one\nBody line two".toList :=
  readFile_md_title_content defaultConfig markdownSite "src/index.md".toList
    "Title Line".toList [] "Body line one\nBody line two".toList
    (by decide) (by decide) (by decide) (by decide) (by decide)

/-- C10, as stated, fails: with `Src = "./././././src"` the text of
`src/b.md` contains a line break, and `readFile` still aborts out of range
(in the slice of `pathToURL`, before `lines[2:]` is taken) instead of
returning a `page` Element. -/
theorem readFile_md_slice_unclean_src :
    Join uncleanConfig.Src "b.md".toList = "src/b.md".toList ∧
    Ext "src/b.md".toList = ".md".toList ∧
    uncleanSite.files "src/b.md".toList = some "Only a title\n".toList ∧
    '\n' ∈ "Only a title\n".toList ∧
    readFile uncleanConfig uncleanSite "src/b.md".toList = .error .panic :=
  ⟨by decide, by decide, by decide, by decide, rfl⟩

/-- C10. For a readable markdown file at a path for which the slice of
`pathToURL` is in range, `readFile` returns a `page` Element exactly when
the text contains a line break, and panics on the slice `lines[2:]`
otherwise; with exactly one line break the `Content` is empty. -/
theorem readFile_md_slice_in_range_iff (cfg : Config) (fs : FS) (path content : Str)
    (hext : Ext path = ".md".toList)
    (hrange : cfg.Src.length ≤ (ensureExt path ".html".toList).length)
    (hfile : fs.files path = some content) :
    ((∃ el, readFile cfg fs path = .ok el ∧ el.Typ = "page") ↔ '\n' ∈ content) ∧
    ('\n' ∉ content → readFile cfg fs path = .error .panic) ∧
    (content.count '\n' = 1 →
      ∃ el, readFile cfg fs path = .ok el ∧ el.Typ = "page" ∧ el.Content = []) := by
  have heq := readFile_md_eq cfg fs path content hext hrange hfile
  have hlen := length_splitOnByte '\n' content
  have hpanic : '\n' ∉ content → readFile cfg fs path = .error .panic := by
    intro hno
    rw [heq, splitOnByte_of_not_mem _ _ hno]
  refine ⟨⟨?_, ?_⟩, hpanic, ?_⟩
  · rintro ⟨el, hel, -⟩
    by_contra hno
    rw [hpanic hno] at hel
    cases hel
  · intro hmem
    have hpos : 0 < content.count '\n' := List.count_pos_iff.mpr hmem
    rw [heq]
    cases hsp : splitOnByte '\n' content with
    | nil => exact absurd hsp (splitOnByte_ne_nil _ _)
    | cons l ls =>
      cases ls with
      | nil => rw [hsp] at hlen; simp at hlen; omega
      | cons m ms => exact ⟨_, rfl, rfl⟩
  · intro hone
    rw [heq]
    cases hsp : splitOnByte '\n' content with
    | nil => exact absurd hsp (splitOnByte_ne_nil _ _)
    | cons l ls =>
      cases ls with
      | nil => rw [hsp] at hlen; simp at hlen; omega
      | cons m ms =>
        cases ms with
        | nil => exact ⟨_, rfl, rfl, rfl⟩
        | cons k ks => rw [hsp] at hlen; simp at hlen; omega

theorem readFile_md_slice_in_range_iff_witness :
    ((∃ el, readFile defaultConfig markdownSite "src/short.md".toList = .ok el ∧
        el.Typ = "page") ↔ '\n' ∈ "Only a title\n".toList) ∧
    ('\n' ∉ "Only a title\n".toList →
      readFile defaultConfig markdownSite "src/short.md".toList = .error .panic) ∧
    (("Only a title\n".toList).count '\n' = 1 →
      ∃ el, readFile defaultConfig markdownSite "src/short.md".toList = .ok el ∧
        el.Typ = "page" ∧ el.Content = []) :=
  readFile_md_slice_in_range_iff defaultConfig markdownSite "src/short.md".toList
    "Only a title\n".toList (by decide) (by decide) (by decide)

/-! ## Include expander -/

theorem matchInclude_eq_none (s : Str) (h : ¬ includeOpen <+: s) : matchInclude s = none := by
  have hp : includeOpen.isPrefixOf s = false := by
    cases hb : includeOpen.isPrefixOf s with
    | false => rfl
    | true => exact absurd (List.isPrefixOf_iff_prefix.mp hb) h
  simp [matchInclude, hp]

theorem takeWhile_ne_append (a : Char) (p rest : Str) (hp : a ∉ p) :
    (p ++ a :: rest).takeWhile (· ≠ a) = p ∧ (p ++ a :: rest).dropWhile (· ≠ a) = a :: rest := by
  induction p with
  | nil => simp
  | cons c cs ih =>
    have hc : c ≠ a := fun h => hp (by simp [h])
    have hcs : a ∉ cs := fun h => hp (by simp [h])
    obtain ⟨h1, h2⟩ := ih hcs
    constructor
    · rw [List.cons_append, List.takeWhile_cons_of_pos (by simpa using hc), h1]
    · rw [List.cons_append, List.dropWhile_cons_of_pos (by simpa using hc), h2]

theorem matchInclude_directive (p post : Str) (hp : p ≠ []) (hbrace : '\x7d' ∉ p) :
    matchInclude (includeOpen ++ (p ++ (includeClose ++ post))) =
      some (includeOpen ++ p ++ includeClose) := by
  have hpre : includeOpen.isPrefixOf (includeOpen ++ (p ++ (includeClose ++ post))) = true :=
    List.isPrefixOf_iff_prefix.mpr (List.prefix_append _ _)
  have hdrop : (includeOpen ++ (p ++ (includeClose ++ post))).drop includeOpen.length =
      p ++ (includeClose ++ post) := List.drop_left _ _
  have hclose : includeClose ++ post = '\x7d' :: '\x7d' :: post := rfl
  obtain ⟨h1, h2⟩ := takeWhile_ne_append '\x7d' p ('\x7d' :: post) hbrace
  have hpre2 : includeClose.isPrefixOf ('\x7d' :: '\x7d' :: post) = true :=
    List.isPrefixOf_iff_prefix.mpr ⟨post, rfl⟩
  unfold matchInclude
  rw [if_pos hpre]
  dsimp only
  rw [hdrop, hclose, h1, h2, if_pos ⟨hp, hpre2⟩]

/-- The opening text of a directive has no border: it cannot start inside a
text that is free of it and end inside a following copy of itself. -/
theorem includeOpen_no_straddle (s t : Str) (hs : ¬ includeOpen <+: s)
    (h : includeOpen <+: s ++ (includeOpen ++ t)) : s = [] := by
  obtain ⟨u, hu⟩ := h
  rcases List.append_eq_append_iff.mp hu with ⟨a, ha, -⟩ | ⟨c, hc, hc2⟩
  · exact absurd ⟨a, ha.symm⟩ hs
  · have hcpre : c <+: includeOpen := by
      have h1 : c <+: includeOpen ++ t := ⟨u, hc2.symm⟩
      have h2 : includeOpen <+: includeOpen ++ t := List.prefix_append _ _
      refine List.prefix_of_prefix_length_le h1 h2 ?_
      rw [hc]; simp
    have hlen : s.length + c.length = 10 := by
      have := congrArg List.length hc
      simp only [List.length_append] at this
      rw [← this]; rfl
    have hdrop : c = includeOpen.drop s.length := by rw [hc, List.drop_left]
    have htake : c = includeOpen.take c.length := (List.prefix_iff_eq_take.mp hcpre)
    have key : ∀ k : Fin 11, k.val ≠ 0 → k.val ≠ 10 →
        includeOpen.drop k.val ≠ includeOpen.take (10 - k.val) := by decide
    by_contra hne
    have hk0 : s.length ≠ 0 := fun h0 => hne (List.length_eq_zero.mp h0)
    have hk10 : s.length ≠ 10 := by
      intro h10
      have hc0 : c = [] := List.length_eq_zero.mp (by omega)
      rw [hc0, List.append_nil] at hc
      exact hs ⟨[], by rw [hc, List.append_nil]⟩
    have hlt : s.length < 11 := by omega
    apply key ⟨s.length, hlt⟩ hk0 hk10
    show includeOpen.drop s.length = includeOpen.take (10 - s.length)
    have hcl : 10 - s.length = c.length := by omega
    rw [hcl, ← hdrop, ← htake]

theorem replaceAllFunc_copy (fn : Str → Except Failure Str) (pre rest : Str)
    (h : ∀ s, s ≠ [] → s <:+ pre → ¬ includeOpen <+: s ++ rest) :
    replaceAllFunc fn (pre ++ rest) 0 =
      (replaceAllFunc fn rest 0).map (fun r => pre ++ r) := by
  induction pre with
  | nil =>
    rw [List.nil_append]
    cases replaceAllFunc fn rest 0 <;> simp [Except.map]
  | cons c cs ih =>
    have hnone : matchInclude (c :: (cs ++ rest)) = none :=
      matchInclude_eq_none _ (h (c :: cs) (by simp) (List.suffix_refl _))
    have ih2 := ih (fun s hs hsuf => h s hs (hsuf.trans (List.suffix_cons c cs)))
    rw [List.cons_append, replaceAllFunc, hnone]
    simp only [ih2]
    cases replaceAllFunc fn rest 0 <;> rfl

theorem replaceAllFunc_skip (fn : Str → Except Failure Str) (a b : Str) :
    replaceAllFunc fn (a ++ b) a.length = replaceAllFunc fn b 0 := by
  induction a with
  | nil => rfl
  | cons c cs ih => rw [List.cons_append, List.length_cons, replaceAllFunc, ih]

theorem replaceAllFunc_free (fn : Str → Except Failure Str) (post : Str)
    (h : ¬ includeOpen <:+: post) : replaceAllFunc fn post 0 = .ok post := by
  have := replaceAllFunc_copy fn post [] (fun s _ hsuf hpre => by
    rw [List.append_nil] at hpre
    exact h (List.IsInfix.trans hpre.isInfix hsuf.isInfix))
  rw [List.append_nil] at this
  rw [this]
  simp [replaceAllFunc, Except.map]

theorem replaceAllFunc_match (fn : Str → Except Failure Str) (c : Char) (cs m : Str)
    (hm : matchInclude (c :: cs) = some m) :
    replaceAllFunc fn (c :: cs) 0 =
      (fn m).bind (fun r =>
        (replaceAllFunc fn cs (m.length - 1)).bind (fun rest => .ok (r ++ rest))) := by
  rw [replaceAllFunc, hm]
  rfl

theorem replaceAllFunc_single (fn : Str → Except Failure Str) (pre p post c : Str)
    (hp : p ≠ []) (hbrace : '\x7d' ∉ p) (hpre : ¬ includeOpen <:+: pre)
    (hpost : ¬ includeOpen <:+: post)
    (hfn : fn (includeOpen ++ p ++ includeClose) = .ok c) :
    replaceAllFunc fn (pre ++ (includeOpen ++ (p ++ (includeClose ++ post)))) 0 =
      .ok (pre ++ (c ++ post)) := by
  rw [replaceAllFunc_copy]
  · have hm := matchInclude_directive p post hp hbrace
    have hcons : includeOpen ++ (p ++ (includeClose ++ post)) =
        '\x7b' :: (includeOpen.tail ++ (p ++ (includeClose ++ post))) := rfl
    rw [hcons] at hm
    have hlen : (includeOpen ++ p ++ includeClose).length - 1 =
        (includeOpen.tail ++ p ++ includeClose).length := by
      simp [includeOpen, includeClose]
    have hrest : includeOpen.tail ++ (p ++ (includeClose ++ post)) =
        (includeOpen.tail ++ p ++ includeClose) ++ post := by simp
    rw [hcons, replaceAllFunc_match fn _ _ _ hm, hfn, hlen, hrest, replaceAllFunc_skip,
      replaceAllFunc_free _ _ hpost]
    rfl
  · intro s hs hsuf hpx
    have hns : ¬ includeOpen <+: s := fun hx =>
      hpre (List.IsInfix.trans hx.isInfix hsuf.isInfix)
    exact hs (includeOpen_no_straddle s _ hns hpx)

/-- C3. A body with one include directive, and no opening text of a
directive before or after it, expands to the text before the directive, the
full contents of the named file (looked up relative to the directory of
`path`), and the text after it; the inserted contents are not scanned. -/
theorem replaceIncludes_single_directive (fs : FS) (path pre p post c : Str)
    (hp : p ≠ []) (hbrace : '\x7d' ∉ p)
    (hpre : ¬ "\x7b\x7binclude ".toList <:+: pre)
    (hpost : ¬ "\x7b\x7binclude ".toList <:+: post)
    (hfile : fs.files (Join (Dir path) p) = some c) :
    replaceIncludes fs path
        (pre ++ ("\x7b\x7binclude ".toList ++ (p ++ ("\x7d\x7d".toList ++ post)))) =
      .ok (pre ++ (c ++ post)) := by
  unfold replaceIncludes
  apply replaceAllFunc_single _ pre p post c hp hbrace hpre hpost
  have h10 : (includeOpen ++ p ++ includeClose).drop 10 = p ++ includeClose := by
    rw [List.append_assoc]; exact List.drop_left includeOpen (p ++ includeClose)
  have hl : (includeOpen ++ p ++ includeClose).length - 2 - 10 = p.length := by
    simp [includeOpen, includeClose]
  dsimp only
  rw [h10, hl, List.take_left, hfile]

theorem replaceIncludes_single_directive_witness :
    replaceIncludes includeSite "dir/page.html".toList
        ("<p>".toList ++ ("\x7b\x7binclude ".toList ++
          ("partial.html".toList ++ ("\x7d\x7d".toList ++ "</p>".toList)))) =
      .ok ("<p>".toList ++
        ("<b>Hi</b>\x7b\x7binclude other.html\x7d\x7d".toList ++ "</p>".toList)) :=
  replaceIncludes_single_directive includeSite "dir/page.html".toList "<p>".toList
    "partial.html".toList "</p>".toList
    "<b>Hi</b>\x7b\x7binclude other.html\x7d\x7d".toList
    (by decide) (by decide) (by decide) (by decide) (by decide)

/-! ## Template resolver -/

/-- C6. When the first directory of the chain `d`, `Dir d`, `Dir (Dir d)`, …
that holds `_template.html` is the `k`-th one, `getTemplate d` returns, after
`k + 1` visits, that file's text expanded by `replaceIncludes` with the
template's own path as the base. -/
theorem getTemplate_nearest_ancestor (fs : FS) (k : Nat) (d text : Str)
    (hnone : ∀ j, j < k → fs.stat (Dir^[j] d ++ "/_template.html".toList) = false)
    (hfile : fs.files (Dir^[k] d ++ "/_template.html".toList) = some text)
    (fuel : Nat) (hfuel : k < fuel) :
    getTemplate fs fuel d =
      replaceIncludes fs (Dir^[k] d ++ "/_template.html".toList) text := by
  induction k generalizing d fuel with
  | zero =>
    obtain ⟨n, rfl⟩ : ∃ n, fuel = n + 1 := ⟨fuel - 1, by omega⟩
    have hfile0 : fs.files (d ++ templateName) = some text := hfile
    have hstat : fs.stat (d ++ templateName) = true := by simp [FS.stat, hfile0]
    simp [getTemplate, hstat, readTextFile, hfile0]
    rfl
  | succ k ih =>
    obtain ⟨n, rfl⟩ : ∃ n, fuel = n + 1 := ⟨fuel - 1, by omega⟩
    have h0 : fs.stat (d ++ templateName) = false := hnone 0 (by omega)
    have hrec := ih (Dir d) (fun j hj => by
      have := hnone (j + 1) (by omega)
      rwa [Function.iterate_succ_apply] at this) (by
      rwa [Function.iterate_succ_apply] at hfile) n (by omega)
    rw [Function.iterate_succ_apply, ← hrec]
    simp [getTemplate, h0]

theorem getTemplate_nearest_ancestor_witness :
    getTemplate layoutSite 2 "a/b".toList =
      replaceIncludes layoutSite (Dir^[1] "a/b".toList ++ "/_template.html".toList)
        "<html>layout</html>".toList :=
  getTemplate_nearest_ancestor layoutSite 1 "a/b".toList "<html>layout</html>".toList
    (by decide) (by decide) 2 (by decide)

/-- When no directory of the chain holds `_template.html`, no number of
visits makes `getTemplate` return: the search never ends. -/
theorem getTemplate_never_returns (fs : FS) (d : Str)
    (hnone : ∀ j, fs.stat (Dir^[j] d ++ templateName) = false) (fuel : Nat) :
    getTemplate fs fuel d = .error .noFuel := by
  induction fuel generalizing d with
  | zero => rfl
  | succ n ih =>
    have h0 : fs.stat (d ++ templateName) = false := hnone 0
    have hrec := ih (Dir d) (fun j => by
      have := hnone (j + 1)
      rwa [Function.iterate_succ_apply] at this)
    simp [getTemplate, h0, hrec]

theorem iterate_Dir_src (j : Nat) :
    Dir^[j + 1] "src".toList = ".".toList := by
  induction j with
  | zero => decide
  | succ n ih =>
    rw [Function.iterate_succ_apply', ih]
    decide

/-- C8. In the site `markdownSite`, which has no `_template.html`, the
search started at `src` visits `src`, then `.`, then `.` again and so on: for
every budget of visits `getTemplate` has not returned, neither a layout nor
an error. -/
theorem getTemplate_src_never_returns (fuel : Nat) :
    getTemplate markdownSite fuel "src".toList = .error .noFuel := by
  apply getTemplate_never_returns
  intro j
  cases j with
  | zero => decide
  | succ n => rw [iterate_Dir_src]; decide

/-! ## Paths: the last element of a joined path -/

theorem splitOnByte_append_sep_general (sep : Char) (a b : Str) :
    splitOnByte sep (a ++ sep :: b) = splitOnByte sep a ++ splitOnByte sep b := by
  induction a with
  | nil => simp [splitOnByte]
  | cons c cs ih =>
    rw [List.cons_append, splitOnByte, splitOnByte, ih]
    by_cases hc : c = sep
    · simp [hc]
    · rw [if_neg hc, if_neg hc]
      cases hsp : splitOnByte sep cs with
      | nil => exact absurd hsp (splitOnByte_ne_nil sep cs)
      | cons l ls => rfl

theorem cleanStep_validName (rooted : Bool) (out : List Str) (n : Str) (hn : validName n) :
    cleanStep rooted out n = n :: out := by
  obtain ⟨h1, -, h3, h4⟩ := hn
  simp [cleanStep, h1, h3, h4]

theorem joinWithByte_append_singleton (sep : Char) (xs : List Str) (n : Str) :
    ∃ P : Str, joinWithByte sep (xs ++ [n]) = P ++ n ∧ (P = [] ∨ ∃ Q, P = Q ++ [sep]) := by
  induction xs with
  | nil => exact ⟨[], rfl, Or.inl rfl⟩
  | cons x xs ih =>
    obtain ⟨P, hP, hshape⟩ := ih
    cases hxs : xs ++ [n] with
    | nil => simp at hxs
    | cons m ms =>
      rw [hxs] at hP
      refine ⟨x ++ sep :: P, ?_, ?_⟩
      · rw [List.cons_append, hxs, joinWithByte, hP]; simp
      · rcases hshape with h | ⟨Q, hQ⟩
        · exact Or.inr ⟨x, by rw [h]⟩
        · exact Or.inr ⟨x ++ sep :: Q, by rw [hQ]; simp⟩

theorem Base_append_validName (P n : Str) (hn : validName n)
    (hP : P = [] ∨ ∃ Q, P = Q ++ ['/']) : Base (P ++ n) = n := by
  obtain ⟨h1, h2, -, -⟩ := hn
  have hne : P ++ n ≠ [] := by simp [h1]
  have hrev : n.reverse ≠ [] := by simpa using h1
  obtain ⟨c, cs, hcs⟩ : ∃ c cs, n.reverse = c :: cs := by
    cases hr : n.reverse with
    | nil => exact absurd hr hrev
    | cons c cs => exact ⟨c, cs, rfl⟩
  have hc : c ≠ '/' := by
    intro h
    apply h2
    have : c ∈ n.reverse := by rw [hcs]; simp
    rw [← h]; exact List.mem_reverse.mp this
  have hall : ∀ x ∈ n.reverse, x ≠ '/' := by
    intro x hx h
    exact h2 (h ▸ List.mem_reverse.mp hx)
  have hdrop : (P ++ n).reverse.dropWhile (· = '/') = n.reverse ++ P.reverse := by
    rw [List.reverse_append, hcs, List.cons_append, List.dropWhile_cons_of_neg (by simpa using hc)]
  have htake : (n.reverse ++ P.reverse).takeWhile (· ≠ '/') = n.reverse := by
    rcases hP with h | ⟨Q, hQ⟩
    · rw [h, List.reverse_nil, List.append_nil]
      exact List.takeWhile_eq_self_iff.mpr (by simpa using hall)
    · rw [hQ, List.reverse_append, List.reverse_singleton, List.singleton_append]
      exact (takeWhile_ne_append '/' n.reverse Q.reverse (fun h => h2 (List.mem_reverse.mp h))).1
  unfold Base
  rw [if_neg hne]
  dsimp only
  rw [hdrop, htake, List.reverse_reverse, if_neg h1]

theorem Clean_append_validName (pre n : Str) (hn : validName n)
    (hpre : pre = [] ∨ ∃ a, pre = a ++ ['/']) :
    ∃ P : Str, Clean (pre ++ n) = P ++ n ∧ (P = [] ∨ ∃ Q, P = Q ++ ['/']) := by
  have hsplit : ∃ xs, splitOnByte '/' (pre ++ n) = xs ++ [n] := by
    rcases hpre with h | ⟨a, ha⟩
    · exact ⟨[], by rw [h, List.nil_append, splitOnByte_of_not_mem _ _ hn.2.1]; rfl⟩
    · refine ⟨splitOnByte '/' a, ?_⟩
      rw [ha, List.append_assoc, List.singleton_append, splitOnByte_append_sep_general,
        splitOnByte_of_not_mem _ _ hn.2.1]
  obtain ⟨xs, hxs⟩ := hsplit
  unfold Clean
  dsimp only
  rw [hxs, List.foldl_append, List.foldl_cons, List.foldl_nil, cleanStep_validName _ _ _ hn,
    List.reverse_cons]
  obtain ⟨P, hP, hshape⟩ := joinWithByte_append_singleton '/'
    (List.foldl (cleanStep (decide ((pre ++ n).head? = some '/'))) [] xs).reverse n
  by_cases hr : (pre ++ n).head? = some '/'
  · rw [if_pos hr, hP]
    refine ⟨'/' :: P, rfl, ?_⟩
    rcases hshape with h | ⟨Q, hQ⟩
    · exact Or.inr ⟨[], by rw [h]; rfl⟩
    · exact Or.inr ⟨'/' :: Q, by rw [hQ]; rfl⟩
  · rw [if_neg hr, if_neg (by simp), hP]
    exact ⟨P, rfl, hshape⟩

/-- The last element of `Join path name` is `name`, for a name as a
directory listing reports it. -/
theorem Base_Join (path n : Str) (hn : validName n) : Base (Join path n) = n := by
  unfold Join
  by_cases hp : path = []
  · rw [if_pos hp, if_neg hn.1]
    obtain ⟨P, hP, hshape⟩ := Clean_append_validName [] n hn (Or.inl rfl)
    rw [List.nil_append] at hP
    rw [hP]
    exact Base_append_validName P n hn hshape
  · rw [if_neg hp]
    obtain ⟨P, hP, hshape⟩ := Clean_append_validName (path ++ ['/']) n hn (Or.inr ⟨path, rfl⟩)
    rw [List.append_assoc, List.singleton_append] at hP
    rw [hP]
    exact Base_append_validName P n hn hshape

/-! ## Tree builder: directories -/

theorem readFile_ok_fields (cfg : Config) (fs : FS) (p : Str) (el : Element)
    (h : readFile cfg fs p = .ok el) :
    el.Path = p ∧ el.Filename = Base p ∧ el.Typ ≠ "dir" ∧ el.Children = [] := by
  unfold readFile at h
  simp only [bind, Except.bind, pure, Except.pure] at h
  repeat' (split at h)
  all_goals first
    | (cases h; simp [Element.Path, Element.Filename, Element.Typ, Element.Children])
    | cases h

theorem readDirectory_ok_fields (cfg : Config) (fs : FS) (fuel : Nat) (p : Str) (el : Element)
    (h : readDirectory cfg fs fuel p = .ok el) :
    el.Path = p ∧ el.Filename = Base p ∧ el.Typ = "dir" ∧
      ∃ files, fs.dirs p = some files ∧
        readEntries (readDirectory cfg fs (fuel - 1)) (readFile cfg fs) p files =
          .ok el.Children := by
  cases fuel with
  | zero => cases h
  | succ n =>
    unfold readDirectory at h
    cases hd : fs.dirs p with
    | none => rw [hd] at h; cases h
    | some files =>
      rw [hd] at h
      simp only [bind, Except.bind, pure, Except.pure] at h
      cases hr : readEntries (readDirectory cfg fs n) (readFile cfg fs) p files with
      | error e => rw [hr] at h; cases h
      | ok children =>
        rw [hr] at h
        cases h
        exact ⟨rfl, rfl, rfl, files, rfl, hr⟩

/-- The loop of `readDirectory` yields one Element per entry that is not
hidden, in the order of the listing, each the result of the call made for
that entry. -/
theorem readEntries_forall₂ (readDir readF : Str → Except Failure Element) (path : Str)
    (files : List FileInfo) (children : List Element)
    (h : readEntries readDir readF path files = .ok children) :
    List.Forall₂
      (fun child fi =>
        (if fi.IsDir then readDir (Join path fi.Name) else readF (Join path fi.Name)) =
          .ok child)
      children (files.filter (fun fi => !hiddenEntry fi)) := by
  induction files generalizing children with
  | nil =>
    cases h
    exact List.Forall₂.nil
  | cons fi files ih =>
    unfold readEntries at h
    split at h
    · cases h
    · split at h
      · rename_i hhid
        have : hiddenEntry fi = true := by simp [hiddenEntry, hhid]
        rw [List.filter_cons_of_neg (by simp [this])]
        exact ih children h
      · rename_i hhid
        have hvis : hiddenEntry fi = false := by simp [hiddenEntry, hhid]
        rw [List.filter_cons_of_pos (by simp [hvis])]
        have h2 : ((if fi.IsDir then readDir (Join path fi.Name)
            else readF (Join path fi.Name)).bind fun e =>
              (readEntries readDir readF path files).bind fun es => .ok (e :: es)) =
            .ok children := h
        cases he : (if fi.IsDir then readDir (Join path fi.Name)
            else readF (Join path fi.Name)) with
        | error e => rw [he] at h2; cases h2
        | ok e =>
          rw [he] at h2
          cases hes : readEntries readDir readF path files with
          | error e2 => rw [hes] at h2; cases h2
          | ok es =>
            rw [hes] at h2
            cases h2
            exact List.Forall₂.cons he (ih es hes)

theorem forall₂_imp_mem {α β : Type} {R S : α → β → Prop} {l₁ : List α} {l₂ : List β}
    (h : List.Forall₂ R l₁ l₂) (himp : ∀ a b, b ∈ l₂ → R a b → S a b) :
    List.Forall₂ S l₁ l₂ := by
  induction h with
  | nil => exact List.Forall₂.nil
  | cons hab _ ih =>
    exact List.Forall₂.cons (himp _ _ (by simp) hab)
      (ih (fun a b hb hr => himp a b (List.mem_cons_of_mem _ hb) hr))

theorem forall₂_exists_right {α β : Type} {R : α → β → Prop} {l₁ : List α} {l₂ : List β}
    (h : List.Forall₂ R l₁ l₂) : ∀ a ∈ l₁, ∃ b, b ∈ l₂ ∧ R a b := by
  induction h with
  | nil => intro a ha; cases ha
  | cons hab _ ih =>
    intro a ha
    rcases List.mem_cons.mp ha with rfl | ha
    · exact ⟨_, by simp, hab⟩
    · obtain ⟨b, hb, hr⟩ := ih a ha
      exact ⟨b, List.mem_cons_of_mem _ hb, hr⟩

theorem descendants_eq (e : Element) : e.descendants = descendantsAll e.Children := by
  cases e
  simp [Element.descendants, Element.Children]

theorem mem_descendantsAll (cs : List Element) (e : Element) :
    e ∈ descendantsAll cs ↔ ∃ c ∈ cs, e = c ∨ e ∈ c.descendants := by
  induction cs with
  | nil => simp [descendantsAll]
  | cons c cs ih =>
    simp only [descendantsAll, List.mem_cons, List.mem_append, ih]
    constructor
    · rintro (h | h | ⟨x, hx, h⟩)
      · exact ⟨c, Or.inl rfl, Or.inl h⟩
      · exact ⟨c, Or.inl rfl, Or.inr h⟩
      · exact ⟨x, Or.inr hx, h⟩
    · rintro ⟨x, rfl | hx, h⟩
      · rcases h with h | h
        · exact Or.inl h
        · exact Or.inr (Or.inl h)
      · exact Or.inr (Or.inr ⟨x, hx, h⟩)

/-- What `readDirectory` guarantees about each child, given the entry it
was made from. -/
theorem readDirectory_child (cfg : Config) (fs : FS) (n : Nat) (path : Str) (fi : FileInfo)
    (child : Element) (hn : validName fi.Name)
    (h : (if fi.IsDir then readDirectory cfg fs n (Join path fi.Name)
      else readFile cfg fs (Join path fi.Name)) = .ok child) :
    child.Path = Join path fi.Name ∧ child.Filename = fi.Name ∧
      (child.Typ = "dir" ↔ fi.IsDir = true) := by
  by_cases hd : fi.IsDir = true
  · rw [if_pos hd] at h
    obtain ⟨h1, h2, h3, -⟩ := readDirectory_ok_fields cfg fs n _ child h
    exact ⟨h1, by rw [h2, Base_Join _ _ hn], by simp [h3, hd]⟩
  · rw [if_neg hd] at h
    obtain ⟨h1, h2, h3, -⟩ := readFile_ok_fields cfg fs _ child h
    exact ⟨h1, by rw [h2, Base_Join _ _ hn], by simp [h3, hd]⟩

theorem readDirectory_descendants (cfg : Config) (fs : FS)
    (hnames : ∀ p l, fs.dirs p = some l → ∀ fi ∈ l, validName fi.Name)
    (fuel : Nat) (path : Str) (dir : Element)
    (hok : readDirectory cfg fs fuel path = .ok dir) :
    ∀ e ∈ dir.descendants, e.Filename.take 1 ≠ ['_'] := by
  induction fuel generalizing path dir with
  | zero => cases hok
  | succ n ih =>
    obtain ⟨-, -, -, files, hfiles, hentries⟩ := readDirectory_ok_fields cfg fs _ path dir hok
    have hall := readEntries_forall₂ _ _ _ _ _ hentries
    intro e he
    rw [descendants_eq, mem_descendantsAll] at he
    obtain ⟨c, hc, hec⟩ := he
    obtain ⟨fi, hfi, hrel⟩ : ∃ fi, fi ∈ files.filter (fun fi => !hiddenEntry fi) ∧
        (if fi.IsDir then readDirectory cfg fs n (Join path fi.Name)
          else readFile cfg fs (Join path fi.Name)) = .ok c :=
      forall₂_exists_right hall c hc
    have hmem := List.mem_filter.mp hfi
    have hvalid := hnames path files hfiles fi hmem.1
    have hvis : fi.Name.take 1 ≠ ['_'] := by
      have := hmem.2
      simpa [hiddenEntry] using this
    obtain ⟨-, hname, -⟩ := readDirectory_child cfg fs n path fi c hvalid hrel
    rcases hec with rfl | hbelow
    · rw [hname]; exact hvis
    · by_cases hd : fi.IsDir = true
      · rw [if_pos hd] at hrel
        exact ih _ _ hrel e hbelow
      · rw [if_neg hd] at hrel
        obtain ⟨-, -, -, hch⟩ := readFile_ok_fields cfg fs _ c hrel
        rw [descendants_eq, hch] at hbelow
        simp [descendantsAll] at hbelow

/-- C5. When `readDirectory` succeeds on a directory whose listing is
`files`, the children of the resulting `dir` Element stand one-to-one and in
listing order for the entries whose name does not begin with `_`: each child
has the entry's name as `Filename`, is a `dir` Element exactly when the entry
is a directory, and is the result of `readDirectory` resp. `readFile` on the
joined path.  No Element below the root has a `Filename` beginning with `_`. -/
theorem readDirectory_children (cfg : Config) (fs : FS)
    (hnames : ∀ p l, fs.dirs p = some l → ∀ fi ∈ l, validName fi.Name)
    (fuel : Nat) (path : Str) (files : List FileInfo) (dir : Element)
    (hlist : fs.dirs path = some files)
    (hok : readDirectory cfg fs fuel path = .ok dir) :
    dir.Typ = "dir" ∧
    List.Forall₂
      (fun child fi =>
        child.Path = Join path fi.Name ∧ child.Filename = fi.Name ∧
        (child.Typ = "dir" ↔ fi.IsDir = true) ∧
        (if fi.IsDir then readDirectory cfg fs (fuel - 1) (Join path fi.Name)
          else readFile cfg fs (Join path fi.Name)) = .ok child)
      dir.Children (files.filter (fun fi => fi.Name.take 1 ≠ ['_'])) ∧
    (∀ e ∈ dir.descendants, e.Filename.take 1 ≠ ['_']) := by
  obtain ⟨-, -, htyp, files2, hfiles, hentries⟩ := readDirectory_ok_fields cfg fs _ path dir hok
  rw [hlist] at hfiles
  cases hfiles
  have hall := readEntries_forall₂ _ _ _ _ _ hentries
  have hfilter : files.filter (fun fi => !hiddenEntry fi) =
      files.filter (fun fi => fi.Name.take 1 ≠ ['_']) := by
    congr 1; funext fi; simp [hiddenEntry]
  rw [hfilter] at hall
  refine ⟨htyp, forall₂_imp_mem hall ?_, readDirectory_descendants cfg fs hnames fuel path dir hok⟩
  intro child fi hfi hrel
  have hvalid := hnames path files hlist fi (List.mem_filter.mp hfi).1
  obtain ⟨h1, h2, h3⟩ := readDirectory_child cfg fs _ path fi child hvalid hrel
  exact ⟨h1, h2, h3, hrel⟩

theorem ofTables_names (files : List (Str × Str)) (dirs : List (Str × List FileInfo))
    (space : Nat) (h : ∀ e ∈ dirs, ∀ fi ∈ e.2, validName fi.Name) :
    ∀ p l, (FS.ofTables files dirs space).dirs p = some l → ∀ fi ∈ l, validName fi.Name := by
  intro p l hl fi hfi
  simp only [FS.ofTables, Option.map_eq_some'] at hl
  obtain ⟨e, he, rfl⟩ := hl
  exact h e (List.mem_of_find?_eq_some he) fi hfi

theorem readDirectory_children_witness :
    treeSiteElement.Typ = "dir" ∧
    List.Forall₂
      (fun child fi =>
        child.Path = Join "src".toList fi.Name ∧ child.Filename = fi.Name ∧
        (child.Typ = "dir" ↔ fi.IsDir = true) ∧
        (if fi.IsDir then readDirectory defaultConfig treeSite (3 - 1) (Join "src".toList fi.Name)
          else readFile defaultConfig treeSite (Join "src".toList fi.Name)) = .ok child)
      treeSiteElement.Children
      (([⟨"_template.html".toList, false⟩, ⟨"img".toList, true⟩,
        ⟨"index.md".toList, false⟩] : List FileInfo).filter
          (fun fi => fi.Name.take 1 ≠ ['_'])) ∧
    (∀ e ∈ treeSiteElement.descendants, e.Filename.take 1 ≠ ['_']) :=
  readDirectory_children defaultConfig treeSite
    (ofTables_names _ _ _ (by decide)) 3 "src".toList
    [⟨"_template.html".toList, false⟩, ⟨"img".toList, true⟩, ⟨"index.md".toList, false⟩]
    treeSiteElement (by decide) rfl

/-! ## Output paths and URLs -/

theorem pageDestPath_docs_page :
    pageDestPath defaultConfig "src/docs/page.md".toList = .ok "www/docs/page.html".toList := by
  decide

theorem fileDestPath_img_logo :
    fileDestPath defaultConfig "src/img/logo.png".toList = .ok "www/img/logo.png".toList := by
  decide

/-- When the only occurrence of the old text in `stem ++ old` is the final
one, `replaceFirst` replaces that one. -/
theorem replaceFirst_final (stem old new : Str) (hold : old ≠ [])
    (hfirst : ∀ a b, stem ++ old = a ++ (old ++ b) → stem.length ≤ a.length) :
    replaceFirst (stem ++ old) old new = stem ++ new := by
  induction stem with
  | nil =>
    cases old with
    | nil => exact absurd rfl hold
    | cons c cs =>
      rw [List.nil_append, replaceFirst,
        if_pos (List.isPrefixOf_iff_prefix.mpr (List.prefix_refl _)), List.drop_length]
      simp
  | cons c cs ih =>
    have hnot : ¬ old <+: c :: (cs ++ old) := by
      rintro ⟨b, hb⟩
      have := hfirst [] b (by rw [List.nil_append, List.cons_append, hb])
      simp at this
    have hpre : old.isPrefixOf (c :: (cs ++ old)) = false := by
      cases hb : old.isPrefixOf (c :: (cs ++ old)) with
      | false => rfl
      | true => exact absurd (List.isPrefixOf_iff_prefix.mp hb) hnot
    rw [List.cons_append, replaceFirst, hpre]
    simp only [Bool.false_eq_true, if_false, List.cons_append, List.cons.injEq, true_and]
    apply ih
    intro a b hab
    have := hfirst (c :: a) b (by rw [List.cons_append, List.cons_append, hab])
    simpa using this

/-- `ensureExt` does replace the extension when the text of the extension
does not occur earlier in the path. -/
theorem ensureExt_final (stem ext new : Str) (hext : Ext (stem ++ ext) = ext) (hne : ext ≠ [])
    (hfirst : ∀ a b, stem ++ ext = a ++ (ext ++ b) → stem.length ≤ a.length) :
    ensureExt (stem ++ ext) new = stem ++ new := by
  unfold ensureExt
  dsimp only
  rw [hext]
  exact replaceFirst_final stem ext new hne hfirst

theorem readDirectory_nestedSite :
    readDirectory defaultConfig nestedSite 3 "src".toList = .ok nestedSiteElement := rfl

/-- C1. For the page `src/a.md/b.md` (a markdown file in a directory whose
name ends in `.md`) `generate` computes the destination `www/a.html/b.md`:
the first occurrence of `.md` in the joined path is replaced, not the
extension of the file.  Generating the site writes the page there and
nothing at `www/a.md/b.html`. -/
theorem pageDestPath_first_occurrence :
    Ext "a.md/b.md".toList = ".md".toList ∧
    pageDestPath defaultConfig "src/a.md/b.md".toList = .ok "www/a.html/b.md".toList ∧
    (generate defaultConfig blankEngine 3 nestedSiteElement nestedSite).1 = none ∧
    (generate defaultConfig blankEngine 3 nestedSiteElement nestedSite).2.files
      "www/a.html/b.md".toList = some [] ∧
    (generate defaultConfig blankEngine 3 nestedSiteElement nestedSite).2.files
      "www/a.md/b.html".toList = none := by
  decide

/-- C7. For `src/a.md/b.md` the URL is `/a.html/b.md`, and for the file
`src/README`, which has no extension, the URL is `mlsrc/README`: `.html` is
put in front of the whole path and the slice then cuts through it.  These
are the URLs `readFile` stores. -/
theorem pathToURL_first_occurrence :
    pathToURL defaultConfig "src/a.md/b.md".toList = .ok "/a.html/b.md".toList ∧
    pathToURL defaultConfig "src/README".toList = .ok "mlsrc/README".toList ∧
    (readFile defaultConfig nestedSite "src/a.md/b.md".toList).map Element.URL =
      .ok "/a.html/b.md".toList ∧
    (readFile defaultConfig nestedSite "src/README".toList).map Element.URL =
      .ok "mlsrc/README".toList := by
  decide

/-! ## Output materialiser -/

theorem generateAll_stops (cfg : Config) (tmpl : Engine) (fuel : Nat) (el : Element)
    (rest : List Element) (fs fs1 : FS) (e : Failure)
    (h : generate cfg tmpl fuel el fs = (some e, fs1)) :
    generateAll cfg tmpl fuel (el :: rest) fs = (some e, fs1) := by
  rw [generateAll, h]

theorem generateAll_continues (cfg : Config) (tmpl : Engine) (fuel : Nat) (el : Element)
    (rest : List Element) (fs fs1 : FS)
    (h : generate cfg tmpl fuel el fs = (none, fs1)) :
    generateAll cfg tmpl fuel (el :: rest) fs = generateAll cfg tmpl fuel rest fs1 := by
  rw [generateAll, h]

theorem mkdir_files (fs : FS) (path : Str) (fs1 : FS) (h : fs.mkdir path = .ok fs1) :
    fs1.files = fs.files ∧ fs1.space = fs.space := by
  unfold FS.mkdir at h
  split at h
  · cases h
  · split at h
    · cases h
    · split at h
      · cases h
      · cases h; exact ⟨rfl, rfl⟩

theorem mkdirAllAux_files (fs : FS) (fuel : Nat) (path : Str) (fs1 : FS)
    (h : fs.mkdirAllAux fuel path = .ok fs1) :
    fs1.files = fs.files ∧ fs1.space = fs.space := by
  induction fuel generalizing path fs1 with
  | zero => cases h
  | succ n ih =>
    unfold FS.mkdirAllAux at h
    split at h
    · cases h; exact ⟨rfl, rfl⟩
    · split at h
      · cases h
      · dsimp only at h
        split at h
        · cases h
        · rename_i fsp hparent
          have hp : fsp.files = fs.files ∧ fsp.space = fs.space := by
            split at hparent
            · exact ih _ _ hparent
            · cases hparent; exact ⟨rfl, rfl⟩
          split at h
          · rename_i fs2 hmk
            cases h
            obtain ⟨h1, h2⟩ := mkdir_files _ _ _ hmk
            exact ⟨h1.trans hp.1, h2.trans hp.2⟩
          · split at h
            · cases h; exact hp
            · cases h

theorem mkdirAll_files (fs : FS) (dir : Str) (fs1 : FS) (h : fs.mkdirAll dir = .ok fs1) :
    fs1.files = fs.files ∧ fs1.space = fs.space :=
  mkdirAllAux_files fs _ dir fs1 h

theorem create_files (fs : FS) (path : Str) (fs1 : FS) (h : fs.create path = .ok fs1) :
    (∀ p, p ≠ path → fs1.files p = fs.files p) ∧ fs1.space = fs.space := by
  unfold FS.create at h
  split at h
  · cases h
  · split at h
    · cases h
    · split at h
      · cases h
      · cases h
        exact ⟨fun p hp => by simp [hp], rfl⟩

theorem ensurePath_files (fs : FS) (path : Str) :
    (ensurePath fs path).2.files = fs.files ∧ (ensurePath fs path).2.space = fs.space := by
  unfold ensurePath
  dsimp only
  split
  · cases hm : fs.mkdirAll (Dir path) with
    | error e => exact ⟨rfl, rfl⟩
    | ok fs1 => exact mkdirAll_files fs _ fs1 hm
  · exact ⟨rfl, rfl⟩

/-- When the source and the destination differ and the device has room for
the data, a `copyFile` that returns no error leaves the bytes of the source
at the destination. -/
theorem copyFile_copies (fs : FS) (source dest data : Str)
    (hsrc : fs.files source = some data) (hne : source ≠ dest)
    (hspace : data.length ≤ fs.space) (hok : (copyFile fs source dest).1 = none) :
    (copyFile fs source dest).2.files dest = some data ∧
    (copyFile fs source dest).2.files source = some data := by
  obtain ⟨hf, hs⟩ := ensurePath_files fs dest
  have hsrc1 : (ensurePath fs dest).2.files source = some data := by rw [hf]; exact hsrc
  unfold copyFile at hok ⊢
  dsimp only at hok ⊢
  have hopen : (ensurePath fs dest).2.openFile source = .ok () := by
    simp [FS.openFile, FS.stat, hsrc1]
  rw [hopen] at hok ⊢
  dsimp only at hok ⊢
  cases hc : (ensurePath fs dest).2.create dest with
  | error e => rw [hc] at hok; cases hok
  | ok fs2 =>
    have hfs2 : fs2.files source = some data ∧ fs2.space = fs.space := by
      obtain ⟨h1, h2⟩ := create_files _ _ _ hc
      exact ⟨by rw [h1 source hne, hsrc1], by rw [h2, hs]⟩
    dsimp only
    simp only [FS.copy, hfs2.1, FS.write, hfs2.2, hspace, if_true]
    simp [hne, hfs2.1]

/-- A failure of `os.Open` on the source (nothing exists there once the
parent of the destination has been made) is returned by `copyFile`. -/
theorem copyFile_open_error (fs : FS) (source dest : Str)
    (h : (ensurePath fs dest).2.stat source = false) :
    (copyFile fs source dest).1 = some .err := by
  have hopen : (ensurePath fs dest).2.openFile source = .error .err := by
    simp [FS.openFile, h]
  unfold copyFile
  dsimp only
  rw [hopen]

/-- A failure of `os.Create` on the destination is returned by `copyFile`. -/
theorem copyFile_create_error (fs : FS) (source dest data : Str) (e : Failure)
    (h : fs.files source = some data)
    (hc : (ensurePath fs dest).2.create dest = .error e) :
    (copyFile fs source dest).1 = some e := by
  have hf := (ensurePath_files fs dest).1
  have hopen : (ensurePath fs dest).2.openFile source = .ok () := by
    simp [FS.openFile, FS.stat, hf, h]
  unfold copyFile
  dsimp only
  rw [hopen]
  dsimp only
  rw [hc]

/-- C9. Copying `src/logo.png` to a device with room for three bytes: the
destination is created, `io.Copy` stops with an error after three bytes, and
`generate` nevertheless returns no error, for the `file` Element and for the
`dir` Element that holds it. -/
theorem generate_file_drops_copy_error :
    (match ((ensurePath fullDiskSite "www/logo.png".toList).2).create "www/logo.png".toList with
      | .ok fs2 => (fs2.copy "src/logo.png".toList "www/logo.png".toList).1
      | .error e => some e) = some Failure.err ∧
    (generate defaultConfig blankEngine 0 logoElement fullDiskSite).1 = none ∧
    (generate defaultConfig blankEngine 0
      (.mk "src".toList "src".toList "dir" [] [] [] [logoElement]) fullDiskSite).1 = none := by
  decide

/-- C2. Copying `src/logo.png` (seven bytes) to a device with room for three
bytes: `generate` returns no error, and the output file `www/logo.png` holds
only the first three bytes of the source. -/
theorem generate_file_truncated_copy :
    fileDestPath defaultConfig logoElement.Path = .ok "www/logo.png".toList ∧
    fullDiskSite.files "src/logo.png".toList = some "PNGDATA".toList ∧
    (generate defaultConfig blankEngine 0 logoElement fullDiskSite).1 = none ∧
    (generate defaultConfig blankEngine 0 logoElement fullDiskSite).2.files
      "src/logo.png".toList = some "PNGDATA".toList ∧
    (generate defaultConfig blankEngine 0 logoElement fullDiskSite).2.files
      "www/logo.png".toList = some "PNG".toList := by
  decide

end Zite
